import Mathlib

/-!
# Verification of the Life-Coach mood classifier (Coach_app.py)

A shallow embedding of the mood-scoring / memory subsystem:

* text is `List Char`; Python `str.lower()` is `Char.toLower` mapped over it;
* scores are integers counted in tenths of the Python float unit, so the
  program constants 0.6, 0.5, 0.2, -0.2 are the exact integers 6, 5, 2, -2
  (the arithmetic of the program only ever adds these constants);
* the compound sentiment score of the external VADER analyzer is an
  arbitrary integer input `comp` counted in ten-thousandths, so the
  thresholds 0.5 and 0.05 are 5000 and 500;
* time instants are integers counted in seconds, so the 60-minute window
  of `recent_mood_bias` is 3600;
* the memory mapping (a JSON object) is an insertion-ordered association
  list `Mem`; Python dict read / write is `memLookup` / `dictSet`;
* the JSON (de)serialization used by `save_memory` / `load_memory` is the
  external standard library; it is modelled by a concrete injective codec
  on the memory shape;
* the external chat transport and the random suggestion / quote sampling
  are out of scope; `handle_correct` models the memory effect and the
  reply branch of the `correct:` command.
-/

abbrev Str := List Char

/-- One stored mood record: `{"mood": ..., "ts": ...}` with the ISO
timestamp already parsed to an instant (seconds on an arbitrary origin). -/
structure MoodRec where
  mood : Str
  ts : ℤ
deriving DecidableEq, Repr

/-- A JSON value stored under a top-level key of the memory object: either a
list of mood records (the shape of `"recent_moods"`) or some other value,
kept opaque. -/
inductive JVal where
  | recs : List MoodRec → JVal
  | other : Nat → JVal
deriving DecidableEq, Repr

/-- The memory object: an insertion-ordered association list, as a Python
dict. -/
abbrev Mem := List (Str × JVal)

def recentKey : Str := "recent_moods".data

/-- The empty state returned by `load_memory` on a missing or corrupt file. -/
def emptyMem : Mem := [(recentKey, JVal.recs [])]

/-- Python dict read: first binding of the key. -/
def memLookup : Mem → Str → Option JVal
  | [], _ => none
  | (k, v) :: rest, key => if k = key then some v else memLookup rest key

/-- Python dict write: replace in place, else append at the end. -/
def dictSet : Mem → Str → JVal → Mem
  | [], key, v => [(key, v)]
  | (k, w) :: rest, key, v =>
      if k = key then (k, v) :: rest else (k, w) :: dictSet rest key v

/-- `mem.get("recent_moods", [])` specialized to the record-list shape. -/
def memGetRecs (mem : Mem) : List MoodRec :=
  match memLookup mem recentKey with
  | some (JVal.recs l) => l
  | _ => []

/-- Last `n` elements of a list. -/
def lastN (n : Nat) (l : List α) : List α := l.drop (l.length - n)

/-- `deque(l, maxlen=10)` followed by `append(r)`: keeps the last 10 of
`l ++ [r]`. -/
def pushBounded (l : List MoodRec) (r : MoodRec) : List MoodRec :=
  lastN 10 (l ++ [r])

/-- `remember_mood`: load is already done (the state is the argument); pushes
the new record through the bounded deque and writes the list back. -/
def remember_mood (mem : Mem) (mood : Str) (now : ℤ) : Mem :=
  dictSet mem recentKey (JVal.recs (pushBounded (memGetRecs mem) ⟨mood, now⟩))

/-- `recent_mood_bias`: -0.2 (here -2 tenths) when the last stored record of
this mood is less than 60 minutes (3600 s) old, else 0. -/
def recent_mood_bias (mem : Mem) (mood : Str) (now : ℤ) : ℤ :=
  match ((memGetRecs mem).filter (fun r => decide (r.mood = mood))).getLast? with
  | none => 0
  | some r => if now - r.ts < 3600 then -2 else 0

/-- The five mood categories, as in `ALL_MOODS`. -/
inductive Mood where
  | stressed
  | tired
  | sad
  | happy
  | neutral
deriving DecidableEq, Fintype, Repr

def ALL_MOODS : List Mood := [.stressed, .tired, .sad, .happy, .neutral]

/-- The string label of a mood, as stored in memory and in `ALL_MOODS`. -/
def moodStr : Mood → Str
  | .stressed => "stressed".data
  | .tired => "tired".data
  | .sad => "sad".data
  | .happy => "happy".data
  | .neutral => "neutral".data

/-- Position in the declaration order of `ALL_MOODS`. -/
def moodIdx : Mood → Nat
  | .stressed => 0
  | .tired => 1
  | .sad => 2
  | .happy => 3
  | .neutral => 4

/-- `MOOD_KEYWORDS`, in dict insertion order; `neutral` has no entry. -/
def MOOD_KEYWORDS : List (Mood × List Str) :=
  [(.stressed, ["overwhelmed".data, "anxious".data, "stress".data,
                "pressure".data, "panic".data]),
   (.tired, ["sleepy".data, "exhausted".data, "fatigue".data,
             "drained".data, "tired".data]),
   (.sad, ["down".data, "blue".data, "depressed".data,
           "lonely".data, "sad".data]),
   (.happy, ["great".data, "excited".data, "joy".data,
             "grateful".data, "happy".data])]

/-- The keyword list of a mood in `MOOD_KEYWORDS` (empty for `neutral`,
which has no entry). -/
def kwListOf (m : Mood) : List Str :=
  match MOOD_KEYWORDS.find? (fun p => decide (p.1 = m)) with
  | some p => p.2
  | none => []

def lowerStr (s : Str) : Str := s.map Char.toLower

/-- Whether the first list begins the second. -/
def beginsWith : Str → Str → Bool
  | [], _ => true
  | _ :: _, [] => false
  | a :: as, b :: bs => a == b && beginsWith as bs

/-- Python `kw in hay`: substring containment. -/
def substrOf (kw : Str) : Str → Bool
  | [] => beginsWith kw []
  | c :: rest => beginsWith kw (c :: rest) || substrOf kw rest

/-- Score vectors, in tenths of the Python float unit. -/
abbrev ScoreVec := Mood → ℤ

def initScores : ScoreVec := fun _ => 0

/-- `scores[m] += v`. -/
def addScore (s : ScoreVec) (m : Mood) (v : ℤ) : ScoreVec :=
  fun x => if x = m then s x + v else s x

/-- The keyword loop of `detect_mood`: +0.6 (6 tenths) for a mood when any
of its keywords occurs in the lowercased text (at most once per mood). -/
def keywordPass (textL : Str) (s : ScoreVec) : ScoreVec :=
  MOOD_KEYWORDS.foldl
    (fun acc p =>
      if p.2.any (fun kw => substrOf kw textL) then addScore acc p.1 6
      else acc)
    s

/-- The sentiment if-chain of `detect_mood` on the compound score `c`
(ten-thousandths: 5000 is 0.5 and 500 is 0.05; score increments in
tenths). -/
def sentimentStep (c : ℤ) (s : ScoreVec) : ScoreVec :=
  if c ≥ 5000 then addScore s .happy 5
  else if c ≥ 500 then addScore s .happy 2
  else if c ≤ -5000 then addScore s .sad 5
  else if c ≤ -500 then addScore s .stressed 2
  else addScore s .neutral 2

/-- The recency-penalty loop of `detect_mood`: adds `recent_mood_bias(m)`
for each of the 5 moods. -/
def biasStep (mem : Mem) (now : ℤ) (s : ScoreVec) : ScoreVec :=
  ALL_MOODS.foldl
    (fun acc m => addScore acc m (recent_mood_bias mem (moodStr m) now)) s

/-- `max(scores, key=scores.get)`: first key of the dict iteration order
attaining the maximum (a later key replaces the champion only when strictly
greater). -/
def argmaxMood (s : ScoreVec) : Mood :=
  ALL_MOODS.foldl (fun best m => if s m > s best then m else best) .stressed

/-- The full score vector computed by `detect_mood`. -/
def finalScores (text : Str) (comp : ℤ) (mem : Mem) (now : ℤ) : ScoreVec :=
  biasStep mem now (sentimentStep comp (keywordPass (lowerStr text) initScores))

/-- `detect_mood`: the selected mood and the score snapshot (the compound
score is an input and the reason strings add no information to the model). -/
def detect_mood (text : Str) (comp : ℤ) (mem : Mem) (now : ℤ) :
    Mood × ScoreVec :=
  (argmaxMood (finalScores text comp mem now), finalScores text comp mem now)

/-- `remember_mood` called once per element of `ms`, in order. -/
def remember_many (ms : List (Str × ℤ)) (mem : Mem) : Mem :=
  ms.foldl (fun acc p => remember_mood acc p.1 p.2) mem

def digitChar (d : Nat) : Char := Char.ofNat (48 + d)

def digitVal (c : Char) : Nat := c.toNat - 48

def isDigitCh (c : Char) : Bool := 48 ≤ c.toNat && c.toNat ≤ 57

/-- Decimal digits, most significant first; structural recursion on a fuel
argument so that the kernel can evaluate it (`fuel > n` is always enough,
as each level divides `n` by 10). -/
def natCharsAux : Nat → Nat → Str
  | 0, _ => []
  | fuel + 1, n =>
      if n < 10 then [digitChar n]
      else natCharsAux fuel (n / 10) ++ [digitChar (n % 10)]

/-- Decimal digits of `n`, most significant first. -/
def natChars (n : Nat) : Str := natCharsAux (n + 1) n

def readNatAux : Str → Nat → Nat
  | [], acc => acc
  | c :: r, acc => readNatAux r (acc * 10 + digitVal c)

/-- A natural number, terminated by a semicolon. -/
def encNat (n : Nat) : Str := natChars n ++ [';']

def decNat (l : Str) : Option (Nat × Str) :=
  let ds := l.takeWhile isDigitCh
  match l.dropWhile isDigitCh with
  | c :: r =>
      if ds = [] then none
      else if c = ';' then some (readNatAux ds 0, r) else none
  | [] => none

def encInt (i : ℤ) : Str :=
  if i < 0 then '-' :: encNat i.natAbs else '+' :: encNat i.natAbs

def decInt (l : Str) : Option (ℤ × Str) :=
  match l with
  | '-' :: r =>
      match decNat r with
      | some (n, rest) => some (-(n : ℤ), rest)
      | none => none
  | '+' :: r =>
      match decNat r with
      | some (n, rest) => some ((n : ℤ), rest)
      | none => none
  | _ => none

/-- A length-prefixed character string. -/
def encStr (s : Str) : Str := encNat s.length ++ s

def decStr (l : Str) : Option (Str × Str) :=
  match decNat l with
  | some (n, rest) =>
      if n ≤ rest.length then some (rest.take n, rest.drop n) else none
  | none => none

def encRec (r : MoodRec) : Str := encStr r.mood ++ encInt r.ts

def decRec (l : Str) : Option (MoodRec × Str) :=
  match decStr l with
  | some (m, r1) =>
      match decInt r1 with
      | some (t, r2) => some (⟨m, t⟩, r2)
      | none => none
  | none => none

def decRecsN : Nat → Str → Option (List MoodRec × Str)
  | 0, l => some ([], l)
  | n + 1, l =>
      match decRec l with
      | some (r, rest) =>
          match decRecsN n rest with
          | some (rs, rest2) => some (r :: rs, rest2)
          | none => none
      | none => none

def encRecs (rs : List MoodRec) : Str :=
  encNat rs.length ++ rs.foldr (fun r acc => encRec r ++ acc) []

def encJVal : JVal → Str
  | .recs rs => 'r' :: encRecs rs
  | .other k => 'o' :: encNat k

def decJVal (l : Str) : Option (JVal × Str) :=
  match l with
  | 'r' :: rest =>
      match decNat rest with
      | some (n, rest2) =>
          match decRecsN n rest2 with
          | some (rs, rest3) => some (.recs rs, rest3)
          | none => none
      | none => none
  | 'o' :: rest =>
      match decNat rest with
      | some (k, rest2) => some (.other k, rest2)
      | none => none
  | _ => none

def encEntry (e : Str × JVal) : Str := encStr e.1 ++ encJVal e.2

def decEntry (l : Str) : Option ((Str × JVal) × Str) :=
  match decStr l with
  | some (k, r1) =>
      match decJVal r1 with
      | some (v, r2) => some ((k, v), r2)
      | none => none
  | none => none

def decEntriesN : Nat → Str → Option (Mem × Str)
  | 0, l => some ([], l)
  | n + 1, l =>
      match decEntry l with
      | some (e, rest) =>
          match decEntriesN n rest with
          | some (es, rest2) => some (e :: es, rest2)
          | none => none
      | none => none

/-- Modelled from the spec: `save_memory` writes `json.dumps(mem)`; the
standard-library JSON serializer is not part of this repository, so the
serialized text is modelled by a concrete injective encoding of the memory
object ("serializes and overwrites the backing file entirely"). -/
def save_memory (mem : Mem) : Str :=
  encNat mem.length ++ mem.foldr (fun e acc => encEntry e ++ acc) []

/-- Modelled from the spec: `json.loads` for the memory object; returns
`none` exactly on text the codec cannot parse (a corrupt file). -/
def parseMem (l : Str) : Option Mem :=
  match decNat l with
  | some (n, rest) =>
      match decEntriesN n rest with
      | some (m, []) => some m
      | _ => none
  | none => none

/-- `load_memory`: `none` models a missing backing file, `some s` its text;
on a missing or unparsable file the empty state is returned. -/
def load_memory (file : Option Str) : Mem :=
  match file with
  | none => emptyMem
  | some s =>
      match parseMem s with
      | some m => m
      | none => emptyMem

/-- Python `str.strip()`. -/
def isSpaceCh (c : Char) : Bool :=
  c = ' ' || c = '\t' || c = '\n' || c = '\r' || c = '\x0b' || c = '\x0c'

def trimStr (s : Str) : Str :=
  ((s.dropWhile isSpaceCh).reverse.dropWhile isSpaceCh).reverse

/-- `text.split(":", 1)[1]`: everything after the first colon. -/
def afterColon : Str → Str
  | [] => []
  | c :: r => if c = ':' then r else afterColon r

def validMoods : List Str := ALL_MOODS.map moodStr

/-- `text.split(":", 1)[1].strip().lower()`. -/
def correctArg (text : Str) : Str := lowerStr (trimStr (afterColon text))

/-- The rejection reply of the `correct:` branch. -/
def rejectMsg (mood : Str) : Str :=
  "Unknown mood `".data ++ mood ++ "`. Use one of: ".data
    ++ "stressed, tired, sad, happy, neutral".data

/-- Outcome of the `correct:` branch: either the rejection reply, or the
accepted (normalized) mood; the accepted reply also carries random
suggestions and a quote, which are out of scope. -/
inductive CorrectResult where
  | rejected : Str → CorrectResult
  | accepted : Str → CorrectResult
deriving DecidableEq, Repr

/-- The `correct:` branch of `handle_message`. -/
def handle_correct (text : Str) (mem : Mem) (now : ℤ) : Mem × CorrectResult :=
  let mood := correctArg text
  if mood ∈ validMoods then (remember_mood mem mood now, .accepted mood)
  else (mem, .rejected (rejectMsg mood))


/-! ## Helper lemmas -/

theorem addScore_same (s : ScoreVec) (m : Mood) (v : ℤ) :
    addScore s m v m = s m + v := by
  simp [addScore]

theorem addScore_ne (s : ScoreVec) (m x : Mood) (v : ℤ) (h : x ≠ m) :
    addScore s m v x = s x := by
  simp [addScore, h]

theorem kwListOf_stressed :
    kwListOf .stressed = ["overwhelmed".data, "anxious".data, "stress".data,
      "pressure".data, "panic".data] := by
  rfl

theorem kwListOf_tired :
    kwListOf .tired = ["sleepy".data, "exhausted".data, "fatigue".data,
      "drained".data, "tired".data] := by
  rfl

theorem kwListOf_sad :
    kwListOf .sad = ["down".data, "blue".data, "depressed".data,
      "lonely".data, "sad".data] := by
  rfl

theorem kwListOf_happy :
    kwListOf .happy = ["great".data, "excited".data, "joy".data,
      "grateful".data, "happy".data] := by
  rfl

theorem kwListOf_neutral : kwListOf .neutral = [] := by
  rfl

theorem keywordPass_unfold (t : Str) (s : ScoreVec) :
    keywordPass t s
      = (fun acc =>
          if (kwListOf .happy).any (fun kw => substrOf kw t)
          then addScore acc .happy 6 else acc)
        ((fun acc =>
          if (kwListOf .sad).any (fun kw => substrOf kw t)
          then addScore acc .sad 6 else acc)
        ((fun acc =>
          if (kwListOf .tired).any (fun kw => substrOf kw t)
          then addScore acc .tired 6 else acc)
        ((fun acc =>
          if (kwListOf .stressed).any (fun kw => substrOf kw t)
          then addScore acc .stressed 6 else acc)
        s))) := by
  rfl

theorem keywordPass_eval (t : Str) (s : ScoreVec) (m : Mood) :
    keywordPass t s m
      = s m + (if (kwListOf m).any (fun kw => substrOf kw t) then 6 else 0) := by
  rw [keywordPass_unfold]
  by_cases c1 : (kwListOf .stressed).any (fun kw => substrOf kw t) <;>
  by_cases c2 : (kwListOf .tired).any (fun kw => substrOf kw t) <;>
  by_cases c3 : (kwListOf .sad).any (fun kw => substrOf kw t) <;>
  by_cases c4 : (kwListOf .happy).any (fun kw => substrOf kw t) <;>
    cases m <;> simp [c1, c2, c3, c4, addScore, kwListOf_neutral]

theorem sentimentStep_eval (c : ℤ) (s : ScoreVec) (m : Mood) :
    sentimentStep c s m
      = s m +
        (if c ≥ 5000 then (if m = .happy then 5 else 0)
         else if c ≥ 500 then (if m = .happy then 2 else 0)
         else if c ≤ -5000 then (if m = .sad then 5 else 0)
         else if c ≤ -500 then (if m = .stressed then 2 else 0)
         else (if m = .neutral then 2 else 0)) := by
  cases m <;> simp only [sentimentStep] <;> split_ifs <;> simp_all [addScore]

theorem biasStep_eval (mem : Mem) (now : ℤ) (s : ScoreVec) (m : Mood) :
    biasStep mem now s m = s m + recent_mood_bias mem (moodStr m) now := by
  cases m <;> simp [biasStep, ALL_MOODS, List.foldl, addScore]

theorem recent_mood_bias_cases (mem : Mem) (mood : Str) (now : ℤ) :
    recent_mood_bias mem mood now = 0 ∨ recent_mood_bias mem mood now = -2 := by
  unfold recent_mood_bias
  rcases hl : ((memGetRecs mem).filter
      (fun r => decide (r.mood = mood))).getLast? with _ | r <;> simp [hl]
  omega

theorem argmax_spec (s : ScoreVec) :
    (∀ m, s m ≤ s (argmaxMood s)) ∧
    (∀ m, s m = s (argmaxMood s) → moodIdx (argmaxMood s) ≤ moodIdx m) := by
  simp only [argmaxMood, ALL_MOODS, List.foldl, gt_iff_lt, lt_self_iff_false,
    if_false]
  split_ifs <;>
    refine ⟨fun m => ?_, fun m hm => ?_⟩ <;>
    cases m <;>
    first
      | linarith
      | (simp only [moodIdx]; omega)

theorem argmax_eq_of_others_lt (s : ScoreVec) (m : Mood)
    (h : ∀ x, x ≠ m → s x < s m) : argmaxMood s = m := by
  by_contra hne
  have h1 := (argmax_spec s).1 m
  have h2 := h (argmaxMood s) hne
  linarith

theorem finalScores_eval (text : Str) (comp : ℤ) (mem : Mem) (now : ℤ)
    (m : Mood) :
    finalScores text comp mem now m
      = (if (kwListOf m).any (fun kw => substrOf kw (lowerStr text)) then 6
         else 0)
        + (if comp ≥ 5000 then (if m = .happy then 5 else 0)
           else if comp ≥ 500 then (if m = .happy then 2 else 0)
           else if comp ≤ -5000 then (if m = .sad then 5 else 0)
           else if comp ≤ -500 then (if m = .stressed then 2 else 0)
           else (if m = .neutral then 2 else 0))
        + recent_mood_bias mem (moodStr m) now := by
  simp only [finalScores, biasStep_eval, sentimentStep_eval, keywordPass_eval,
    initScores]
  ring

theorem keywordPass_pos (t : Str) (s : ScoreVec) (m : Mood)
    (ha : (kwListOf m).any (fun kw => substrOf kw t) = true) :
    keywordPass t s m = s m + 6 := by
  rw [keywordPass_eval, ha]
  simp

theorem keywordPass_neg (t : Str) (s : ScoreVec) (m : Mood)
    (ha : (kwListOf m).any (fun kw => substrOf kw t) = false) :
    keywordPass t s m = s m := by
  rw [keywordPass_eval, ha]
  simp

/-! ## Claim theorems -/

/-- Claim C2: `detect_mood` selects a mood of maximal final score; on ties
the mood earliest in the declaration order of `ALL_MOODS` wins; the selected
label is always one of the 5 categories. -/
theorem detect_mood_argmax_spec (text : Str) (comp : ℤ) (mem : Mem)
    (now : ℤ) :
    (detect_mood text comp mem now).1 ∈ ALL_MOODS ∧
    (∀ m, (detect_mood text comp mem now).2 m
        ≤ (detect_mood text comp mem now).2 ((detect_mood text comp mem now).1)) ∧
    (∀ m, (detect_mood text comp mem now).2 m
          = (detect_mood text comp mem now).2 ((detect_mood text comp mem now).1) →
        moodIdx ((detect_mood text comp mem now).1) ≤ moodIdx m) := by
  refine ⟨?_, (argmax_spec (finalScores text comp mem now)).1,
    (argmax_spec (finalScores text comp mem now)).2⟩
  cases (detect_mood text comp mem now).1 <;> simp [ALL_MOODS]

/-- Witness for C2, at a genuine tie: "stress and tired" scores 6 for both
`stressed` and `tired`; the earlier-declared `stressed` is selected. -/
theorem detect_mood_argmax_spec_w :
    moodIdx (detect_mood "stress and tired".data 0 emptyMem 0).1
      ≤ moodIdx Mood.tired :=
  (detect_mood_argmax_spec "stress and tired".data 0 emptyMem 0).2.2
    Mood.tired (by decide)

/-- Claim C3: exactly one sentiment rule fires, first match by descending
threshold (compound score in ten-thousandths, increments in tenths), and it
touches only the one mood named by the rule. -/
theorem sentiment_rule_spec (c : ℤ) (s : ScoreVec) :
    (5000 ≤ c →
        sentimentStep c s .happy = s .happy + 5 ∧
        ∀ m, m ≠ .happy → sentimentStep c s m = s m) ∧
    (500 ≤ c ∧ c < 5000 →
        sentimentStep c s .happy = s .happy + 2 ∧
        ∀ m, m ≠ .happy → sentimentStep c s m = s m) ∧
    (c ≤ -5000 →
        sentimentStep c s .sad = s .sad + 5 ∧
        ∀ m, m ≠ .sad → sentimentStep c s m = s m) ∧
    (-5000 < c ∧ c ≤ -500 →
        sentimentStep c s .stressed = s .stressed + 2 ∧
        ∀ m, m ≠ .stressed → sentimentStep c s m = s m) ∧
    (-500 < c ∧ c < 500 →
        sentimentStep c s .neutral = s .neutral + 2 ∧
        ∀ m, m ≠ .neutral → sentimentStep c s m = s m) := by
  refine ⟨fun h => ?_, fun h => ?_, fun h => ?_, fun h => ?_, fun h => ?_⟩
  · have e : sentimentStep c s = addScore s .happy 5 := by
      simp only [sentimentStep]
      rw [if_pos (by omega)]
    exact ⟨by rw [e, addScore_same], fun m hm => by rw [e, addScore_ne s _ _ _ hm]⟩
  · have e : sentimentStep c s = addScore s .happy 2 := by
      simp only [sentimentStep]
      rw [if_neg (by omega), if_pos (by omega)]
    exact ⟨by rw [e, addScore_same], fun m hm => by rw [e, addScore_ne s _ _ _ hm]⟩
  · have e : sentimentStep c s = addScore s .sad 5 := by
      simp only [sentimentStep]
      rw [if_neg (by omega), if_neg (by omega), if_pos (by omega)]
    exact ⟨by rw [e, addScore_same], fun m hm => by rw [e, addScore_ne s _ _ _ hm]⟩
  · have e : sentimentStep c s = addScore s .stressed 2 := by
      simp only [sentimentStep]
      rw [if_neg (by omega), if_neg (by omega), if_neg (by omega),
        if_pos (by omega)]
    exact ⟨by rw [e, addScore_same], fun m hm => by rw [e, addScore_ne s _ _ _ hm]⟩
  · have e : sentimentStep c s = addScore s .neutral 2 := by
      simp only [sentimentStep]
      rw [if_neg (by omega), if_neg (by omega), if_neg (by omega),
        if_neg (by omega)]
    exact ⟨by rw [e, addScore_same], fun m hm => by rw [e, addScore_ne s _ _ _ hm]⟩

/-- Witness for C3 at compound 0.1 (1000 ten-thousandths): the slightly
positive rule adds 0.2 to happy and leaves sad untouched. -/
theorem sentiment_rule_spec_w :
    sentimentStep 1000 initScores Mood.happy = initScores Mood.happy + 2 ∧
    sentimentStep 1000 initScores Mood.sad = initScores Mood.sad := by
  have h := (sentiment_rule_spec 1000 initScores).2.1 ⟨by omega, by omega⟩
  exact ⟨h.1, h.2 Mood.sad (by decide)⟩

/-- Claim C9: a mood scores exactly +0.6 (6 tenths) from the keyword pass
when some keyword of its list occurs in the lowercased text — once, however
many of its keywords match — and scores nothing from it otherwise. -/
theorem keyword_bonus_spec (text : Str) (s : ScoreVec) (m : Mood)
    (kws : List Str) (hm : (m, kws) ∈ MOOD_KEYWORDS) :
    ((∃ kw ∈ kws, substrOf kw (lowerStr text) = true) →
        keywordPass (lowerStr text) s m = s m + 6) ∧
    ((∀ kw ∈ kws, substrOf kw (lowerStr text) = false) →
        keywordPass (lowerStr text) s m = s m) := by
  simp only [MOOD_KEYWORDS, List.mem_cons, List.not_mem_nil, or_false,
    Prod.mk.injEq] at hm
  rcases hm with ⟨rfl, rfl⟩ | ⟨rfl, rfl⟩ | ⟨rfl, rfl⟩ | ⟨rfl, rfl⟩ <;>
    refine ⟨fun hex => ?_, fun hall => ?_⟩ <;>
    [ (obtain ⟨kw, hkw, hs⟩ := hex
       exact keywordPass_pos _ _ _ (List.any_eq_true.mpr
         ⟨kw, by rwa [kwListOf_stressed], hs⟩));
      (refine keywordPass_neg _ _ _ ?_
       rw [kwListOf_stressed]
       simp only [List.any_eq_false]
       intro x hx
       simp [hall x hx]);
      (obtain ⟨kw, hkw, hs⟩ := hex
       exact keywordPass_pos _ _ _ (List.any_eq_true.mpr
         ⟨kw, by rwa [kwListOf_tired], hs⟩));
      (refine keywordPass_neg _ _ _ ?_
       rw [kwListOf_tired]
       simp only [List.any_eq_false]
       intro x hx
       simp [hall x hx]);
      (obtain ⟨kw, hkw, hs⟩ := hex
       exact keywordPass_pos _ _ _ (List.any_eq_true.mpr
         ⟨kw, by rwa [kwListOf_sad], hs⟩));
      (refine keywordPass_neg _ _ _ ?_
       rw [kwListOf_sad]
       simp only [List.any_eq_false]
       intro x hx
       simp [hall x hx]);
      (obtain ⟨kw, hkw, hs⟩ := hex
       exact keywordPass_pos _ _ _ (List.any_eq_true.mpr
         ⟨kw, by rwa [kwListOf_happy], hs⟩));
      (refine keywordPass_neg _ _ _ ?_
       rw [kwListOf_happy]
       simp only [List.any_eq_false]
       intro x hx
       simp [hall x hx])]

/-- Witness for C9: "i feel stress and panic" hits two stressed keywords
yet adds 6 only once. -/
theorem keyword_bonus_spec_w :
    keywordPass (lowerStr "I feel stress and panic".data) initScores
        Mood.stressed
      = initScores Mood.stressed + 6 :=
  (keyword_bonus_spec "I feel stress and panic".data initScores Mood.stressed
      ["overwhelmed".data, "anxious".data, "stress".data, "pressure".data,
       "panic".data]
      (by decide)).1
    ⟨"stress".data, by decide, by decide⟩

theorem memLookup_dictSet_self (l : Mem) (key : Str) (v : JVal) :
    memLookup (dictSet l key v) key = some v := by
  induction l with
  | nil => simp [dictSet, memLookup]
  | cons e rest ih =>
      obtain ⟨ek, ev⟩ := e
      by_cases hek : ek = key <;> simp [dictSet, hek, memLookup, ih]

theorem memLookup_dictSet_ne (l : Mem) (key k : Str) (v : JVal)
    (h : k ≠ key) :
    memLookup (dictSet l key v) k = memLookup l k := by
  have hks : key ≠ k := Ne.symm h
  induction l with
  | nil => simp [dictSet, memLookup, hks]
  | cons e rest ih =>
      obtain ⟨ek, ev⟩ := e
      by_cases hek : ek = key
      · subst hek
        simp [dictSet, memLookup, hks]
      · simp [dictSet, hek, memLookup, ih]

theorem memGetRecs_remember (mem : Mem) (mood : Str) (now : ℤ) :
    memGetRecs (remember_mood mem mood now)
      = pushBounded (memGetRecs mem) ⟨mood, now⟩ := by
  simp [remember_mood, memGetRecs, memLookup_dictSet_self]

theorem pushBounded_length (l : List MoodRec) (r : MoodRec) :
    (pushBounded l r).length = min (l.length + 1) 10 := by
  simp only [pushBounded, lastN, List.length_drop, List.length_append,
    List.length_cons, List.length_nil]
  omega

theorem pushBounded_small (l : List MoodRec) (r : MoodRec)
    (h : l.length < 10) : pushBounded l r = l ++ [r] := by
  unfold pushBounded lastN
  have h0 : (l ++ [r]).length - 10 = 0 := by
    simp only [List.length_append, List.length_cons, List.length_nil]
    omega
  rw [h0, List.drop_zero]

theorem pushBounded_full (l : List MoodRec) (r : MoodRec)
    (h : l.length = 10) : pushBounded l r = l.drop 1 ++ [r] := by
  unfold pushBounded lastN
  have h1 : (l ++ [r]).length - 10 = 1 := by
    simp only [List.length_append, List.length_cons, List.length_nil]
    omega
  rw [h1, List.drop_append_eq_append_drop]
  have h2 : 1 - l.length = 0 := by omega
  rw [h2, List.drop_zero]

theorem pushBounded_getLast (l : List MoodRec) (r : MoodRec) :
    (pushBounded l r).getLast? = some r := by
  unfold pushBounded lastN
  rw [List.drop_append_eq_append_drop]
  have h2 : (l ++ [r]).length - 10 - l.length = 0 := by
    simp only [List.length_append, List.length_cons, List.length_nil]
    omega
  rw [h2, List.drop_zero, List.getLast?_concat]

theorem remember_many_concat (ms : List (Str × ℤ)) (p : Str × ℤ)
    (mem : Mem) :
    remember_many (ms ++ [p]) mem
      = remember_mood (remember_many ms mem) p.1 p.2 := by
  simp [remember_many, List.foldl_append]

theorem remember_many_recs_small (ms : List (Str × ℤ))
    (h : ms.length ≤ 10) :
    memGetRecs (remember_many ms emptyMem)
      = ms.map (fun p => MoodRec.mk p.1 p.2) := by
  induction ms using List.reverseRecOn with
  | nil => rfl
  | append_singleton ms p ih =>
      have hms : ms.length ≤ 9 := by
        simp only [List.length_append, List.length_cons, List.length_nil] at h
        omega
      rw [remember_many_concat, memGetRecs_remember, ih (by omega),
        pushBounded_small _ _ (by simp only [List.length_map]; omega)]
      simp

/-- Claim C1: the recency penalty is decided by the single most recent
record of the queried mood — -0.2 (tenths: -2) when it is strictly less
than 60 minutes (3600 s) old, 0 otherwise, and 0 when the mood has no
record at all; records of that mood earlier in the history are ignored. -/
theorem recency_penalty_spec (mem : Mem) (mood : Str) (now : ℤ) :
    ((∀ r ∈ memGetRecs mem, r.mood ≠ mood) →
        recent_mood_bias mem mood now = 0) ∧
    (∀ (l₁ : List MoodRec) (r : MoodRec) (l₂ : List MoodRec),
        memGetRecs mem = l₁ ++ r :: l₂ → r.mood = mood →
        (∀ x ∈ l₂, x.mood ≠ mood) →
        recent_mood_bias mem mood now
          = if now - r.ts < 3600 then -2 else 0) := by
  constructor
  · intro h
    have hf : (memGetRecs mem).filter (fun r => decide (r.mood = mood)) = [] := by
      rw [List.filter_eq_nil_iff]
      intro a ha
      simp [h a ha]
    simp [recent_mood_bias, hf]
  · intro l₁ r l₂ he hr hl₂
    have hf2 : l₂.filter (fun x => decide (x.mood = mood)) = [] := by
      rw [List.filter_eq_nil_iff]
      intro a ha
      simp [hl₂ a ha]
    have hsplit : (memGetRecs mem).filter (fun x => decide (x.mood = mood))
        = l₁.filter (fun x => decide (x.mood = mood)) ++ [r] := by
      rw [he, List.filter_append, List.filter_cons, if_pos (by simp [hr]), hf2]
    simp [recent_mood_bias, hsplit, List.getLast?_concat]

/-- Witness for C1: the older `stressed` record (3 000 s before the newer
one) is outside the window, but only the newest (1 000 s old) is consulted,
so the penalty applies. -/
theorem recency_penalty_spec_w :
    recent_mood_bias [(recentKey, JVal.recs
        [⟨"stressed".data, 0⟩, ⟨"sad".data, 100⟩, ⟨"stressed".data, 4000⟩])]
      "stressed".data 5000 = -2 := by
  have h := (recency_penalty_spec [(recentKey, JVal.recs
      [⟨"stressed".data, 0⟩, ⟨"sad".data, 100⟩, ⟨"stressed".data, 4000⟩])]
      "stressed".data 5000).2
      [⟨"stressed".data, 0⟩, ⟨"sad".data, 100⟩] ⟨"stressed".data, 4000⟩ []
      (by decide) (by decide) (by decide)
  rw [h]
  decide

/-- Claim C10: `remember_mood` only rewrites the `"recent_moods"` key; every
other top-level key of the loaded memory object keeps its value. -/
theorem remember_mood_frame_spec (mem : Mem) (mood : Str) (now : ℤ)
    (k : Str) (hk : k ≠ recentKey) :
    memLookup (remember_mood mem mood now) k = memLookup mem k := by
  unfold remember_mood
  exact memLookup_dictSet_ne mem recentKey k _ hk

/-- Witness for C10: a foreign `"quotes"` key survives an append
untouched. -/
theorem remember_mood_frame_spec_w :
    memLookup (remember_mood [("quotes".data, JVal.other 3),
        (recentKey, JVal.recs [])] "sad".data 0) "quotes".data
      = some (JVal.other 3) :=
  (remember_mood_frame_spec [("quotes".data, JVal.other 3),
      (recentKey, JVal.recs [])] "sad".data 0 "quotes".data
      (by decide)).trans (by decide)

/-- Claim C4: an append leaves at most 10 records, puts the new record
(current timestamp) at the end, evicts the oldest when the store is full,
and 11 successive appends from the empty state leave exactly the last 10
records (the first one is evicted). -/
theorem remember_mood_bounded_spec (mem : Mem) (mood : Str) (now : ℤ) :
    (memGetRecs (remember_mood mem mood now)).length ≤ 10 ∧
    (memGetRecs (remember_mood mem mood now)).getLast? = some ⟨mood, now⟩ ∧
    ((memGetRecs mem).length < 10 →
        memGetRecs (remember_mood mem mood now)
          = memGetRecs mem ++ [⟨mood, now⟩]) ∧
    ((memGetRecs mem).length = 10 →
        memGetRecs (remember_mood mem mood now)
          = (memGetRecs mem).drop 1 ++ [⟨mood, now⟩]) ∧
    (∀ ms : List (Str × ℤ), ms.length = 11 →
        memGetRecs (remember_many ms emptyMem)
          = (ms.drop 1).map (fun p => MoodRec.mk p.1 p.2) ∧
        (memGetRecs (remember_many ms emptyMem)).length = 10) := by
  refine ⟨?_, ?_, ?_, ?_, ?_⟩
  · rw [memGetRecs_remember, pushBounded_length]
    omega
  · rw [memGetRecs_remember, pushBounded_getLast]
  · intro h
    rw [memGetRecs_remember, pushBounded_small _ _ h]
  · intro h
    rw [memGetRecs_remember, pushBounded_full _ _ h]
  · intro ms h
    rcases List.eq_nil_or_concat ms with rfl | ⟨init, p, rfl⟩
    · simp at h
    · simp only [List.concat_eq_append] at h ⊢
      have hi : init.length = 10 := by
        simp only [List.length_append, List.length_cons, List.length_nil] at h
        omega
      have hrec : memGetRecs (remember_many (init ++ [p]) emptyMem)
          = (init.map (fun p => MoodRec.mk p.1 p.2)).drop 1
            ++ [MoodRec.mk p.1 p.2] := by
        rw [remember_many_concat, memGetRecs_remember,
          remember_many_recs_small init (by omega),
          pushBounded_full _ _ (by simp only [List.length_map]; exact hi)]
      constructor
      · rw [hrec, List.drop_append_eq_append_drop]
        have h2 : 1 - init.length = 0 := by omega
        rw [h2, List.drop_zero]
        simp [List.map_drop]
      · rw [hrec]
        simp only [List.length_append, List.length_drop, List.length_map,
          List.length_cons, List.length_nil]
        omega

/-- Witness for C4: 11 identical appends from empty leave 10 records. -/
theorem remember_mood_bounded_spec_w :
    (memGetRecs (remember_many
        (List.replicate 11 ("sad".data, (0:ℤ))) emptyMem)).length = 10 :=
  ((remember_mood_bounded_spec emptyMem "sad".data 0).2.2.2.2
    (List.replicate 11 ("sad".data, (0:ℤ))) (by decide)).2

/-- Claim C7: for an input of the form `correct: <mood>`, an argument that
normalizes outside the 5 moods is rejected with a message ending in the
enumeration of the 5 valid moods and the memory is left untouched; a valid
argument is appended to memory. -/
theorem correct_command_spec (text : Str) (mem : Mem) (now : ℤ)
    (_hcmd : beginsWith "correct:".data (lowerStr text) = true) :
    (correctArg text ∉ validMoods →
        (handle_correct text mem now).1 = mem ∧
        (handle_correct text mem now).2
          = .rejected (rejectMsg (correctArg text)) ∧
        ∃ pre, rejectMsg (correctArg text)
            = pre ++ "stressed, tired, sad, happy, neutral".data) ∧
    (correctArg text ∈ validMoods →
        (handle_correct text mem now).2 = .accepted (correctArg text) ∧
        memGetRecs (handle_correct text mem now).1
          = pushBounded (memGetRecs mem) ⟨correctArg text, now⟩) := by
  constructor
  · intro h
    refine ⟨by simp [handle_correct, h], by simp [handle_correct, h], ?_⟩
    exact ⟨"Unknown mood `".data ++ correctArg text ++ "`. Use one of: ".data,
      by simp [rejectMsg]⟩
  · intro h
    refine ⟨by simp [handle_correct, h], ?_⟩
    simp only [handle_correct, if_pos h]
    exact memGetRecs_remember mem (correctArg text) now

/-- Witness for C7: `correct: excited` is rejected and mutates nothing,
while `correct: happy` is accepted and appended. -/
theorem correct_command_spec_w :
    (handle_correct "correct: excited".data emptyMem 0).1 = emptyMem ∧
    (handle_correct "correct: excited".data emptyMem 0).2
      = .rejected (rejectMsg "excited".data) ∧
    memGetRecs (handle_correct "correct: HAPPY".data emptyMem 7).1
      = [⟨"happy".data, 7⟩] := by
  have h1 := (correct_command_spec "correct: excited".data emptyMem 0
    (by decide)).1 (by decide)
  have h2 := (correct_command_spec "correct: HAPPY".data emptyMem 7
    (by decide)).2 (by decide)
  exact ⟨h1.1, h1.2.1.trans (by decide), h2.2.trans (by decide)⟩

/-! ## Codec round trip -/

theorem isDigitCh_digitChar (d : Nat) (h : d < 10) :
    isDigitCh (digitChar d) = true := by
  interval_cases d <;> decide

theorem digitVal_digitChar (d : Nat) (h : d < 10) :
    digitVal (digitChar d) = d := by
  interval_cases d <;> decide

theorem natCharsAux_digits :
    ∀ fuel n, n < fuel → ∀ c ∈ natCharsAux fuel n, isDigitCh c = true := by
  intro fuel
  induction fuel with
  | zero => intro n h; omega
  | succ f ih =>
      intro n h c hc
      rw [natCharsAux] at hc
      by_cases h10 : n < 10
      · rw [if_pos h10] at hc
        simp only [List.mem_singleton] at hc
        subst hc
        exact isDigitCh_digitChar n h10
      · rw [if_neg h10] at hc
        rcases List.mem_append.mp hc with h1 | h1
        · exact ih (n / 10) (by omega) c h1
        · simp only [List.mem_singleton] at h1
          subst h1
          exact isDigitCh_digitChar _ (by omega)

theorem natCharsAux_ne_nil :
    ∀ fuel n, n < fuel → natCharsAux fuel n ≠ [] := by
  intro fuel
  induction fuel with
  | zero => intro n h; omega
  | succ f ih =>
      intro n h
      rw [natCharsAux]
      by_cases h10 : n < 10 <;> simp [h10]

theorem readNatAux_append (l₁ l₂ : Str) :
    ∀ acc, readNatAux (l₁ ++ l₂) acc = readNatAux l₂ (readNatAux l₁ acc) := by
  induction l₁ with
  | nil => intro acc; rfl
  | cons c l ih => intro acc; simp [readNatAux, ih]

theorem readNat_natCharsAux :
    ∀ fuel n, n < fuel → ∀ acc,
      readNatAux (natCharsAux fuel n) acc
        = acc * 10 ^ (natCharsAux fuel n).length + n := by
  intro fuel
  induction fuel with
  | zero => intro n h; omega
  | succ f ih =>
      intro n h acc
      rw [natCharsAux]
      by_cases h10 : n < 10
      · rw [if_pos h10]
        simp [readNatAux, digitVal_digitChar n h10]
      · rw [if_neg h10]
        rw [readNatAux_append]
        simp only [readNatAux]
        rw [ih (n / 10) (by omega)]
        rw [digitVal_digitChar _ (by omega)]
        simp only [List.length_append, List.length_cons, List.length_nil,
          Nat.zero_add, pow_succ]
        have he : (acc * 10 ^ (natCharsAux f (n / 10)).length + n / 10) * 10
              + n % 10
            = acc * (10 ^ (natCharsAux f (n / 10)).length * 10)
              + (n / 10 * 10 + n % 10) := by
          ring
        rw [he]
        congr 1
        omega

theorem takeWhile_all_append (p : Char → Bool) :
    ∀ (l : Str) (c : Char) (r : Str),
      (∀ x ∈ l, p x = true) → p c = false →
      (l ++ c :: r).takeWhile p = l ∧ (l ++ c :: r).dropWhile p = c :: r := by
  intro l
  induction l with
  | nil =>
      intro c r _ hc
      constructor <;> simp [List.takeWhile_cons, List.dropWhile_cons, hc]
  | cons a l ih =>
      intro c r hall hc
      have ha : p a = true := hall a (by simp)
      have hrec := ih c r (fun x hx => hall x (by simp [hx])) hc
      constructor <;>
        simp [List.takeWhile_cons, List.dropWhile_cons, ha, hrec.1, hrec.2]

theorem decNat_encNat (n : Nat) (r : Str) :
    decNat (encNat n ++ r) = some (n, r) := by
  have hd : ∀ c ∈ natChars n, isDigitCh c = true :=
    natCharsAux_digits (n + 1) n (by omega)
  have htw := takeWhile_all_append isDigitCh (natChars n) ';' r hd (by decide)
  have hne : natChars n ≠ [] := natCharsAux_ne_nil (n + 1) n (by omega)
  have hrd : readNatAux (natChars n) 0 = n := by
    have h0 := readNat_natCharsAux (n + 1) n (by omega) 0
    simpa using h0
  have he : encNat n ++ r = natChars n ++ ';' :: r := by
    simp [encNat]
  rw [he]
  simp [decNat, htw.1, htw.2, hne, hrd]

theorem decInt_encInt (i : ℤ) (r : Str) :
    decInt (encInt i ++ r) = some (i, r) := by
  unfold encInt
  by_cases h : i < 0
  · rw [if_pos h]
    simp [decInt, decNat_encNat, Int.natCast_natAbs, abs_of_neg h]
  · rw [if_neg h]
    simp [decInt, decNat_encNat, Int.natCast_natAbs,
      abs_of_nonneg (by omega : (0:ℤ) ≤ i)]

theorem decStr_encStr (s r : Str) :
    decStr (encStr s ++ r) = some (s, r) := by
  have hle : s.length ≤ (s ++ r).length := by
    simp [List.length_append]
  simp [encStr, decStr, List.append_assoc, decNat_encNat, hle,
    List.take_left, List.drop_left]

theorem decRec_encRec (m : MoodRec) (r : Str) :
    decRec (encRec m ++ r) = some (m, r) := by
  simp [encRec, decRec, List.append_assoc, decStr_encStr, decInt_encInt]

theorem decRecsN_enc (rs : List MoodRec) (r : Str) :
    decRecsN rs.length (rs.foldr (fun x acc => encRec x ++ acc) [] ++ r)
      = some (rs, r) := by
  induction rs generalizing r with
  | nil => simp [decRecsN]
  | cons x rs ih =>
      simp [decRecsN, List.append_assoc, decRec_encRec, ih]

theorem decJVal_encJVal (v : JVal) (r : Str) :
    decJVal (encJVal v ++ r) = some (v, r) := by
  cases v with
  | recs rs =>
      simp [encJVal, encRecs, decJVal, List.append_assoc, decNat_encNat,
        decRecsN_enc]
  | other k =>
      simp [encJVal, decJVal, decNat_encNat]

theorem decEntry_encEntry (e : Str × JVal) (r : Str) :
    decEntry (encEntry e ++ r) = some (e, r) := by
  simp [encEntry, decEntry, List.append_assoc, decStr_encStr, decJVal_encJVal]

theorem decEntriesN_enc (m : Mem) (r : Str) :
    decEntriesN m.length (m.foldr (fun e acc => encEntry e ++ acc) [] ++ r)
      = some (m, r) := by
  induction m generalizing r with
  | nil => simp [decEntriesN]
  | cons e m ih =>
      simp [decEntriesN, List.append_assoc, decEntry_encEntry, ih]

theorem parseMem_save (mem : Mem) : parseMem (save_memory mem) = some mem := by
  have h := decEntriesN_enc mem []
  rw [List.append_nil] at h
  simp [save_memory, parseMem, decNat_encNat, h]

/-- Claim C8: `save_memory` immediately followed by `load_memory` restores
an equal memory state, mood/timestamp records in the same order (the whole
mapping, hence in particular the `"recent_moods"` list, is reproduced). -/
theorem save_load_roundtrip_spec (mem : Mem) :
    load_memory (some (save_memory mem)) = mem := by
  simp [load_memory, parseMem_save]

/-- Claim C6: `load_memory` is total (never raises) and returns the empty
state on a missing file (`none`) and on any unparsable file content. -/
theorem load_memory_fail_soft_spec :
    load_memory none = emptyMem ∧
    ∀ s, parseMem s = none → load_memory (some s) = emptyMem := by
  refine ⟨rfl, fun s h => ?_⟩
  simp [load_memory, h]

/-- Witness for C6: garbage content parses to `none` and loads as the empty
state. -/
theorem load_memory_fail_soft_spec_w :
    parseMem "garbage".data = none ∧
    load_memory (some "garbage".data) = emptyMem :=
  ⟨by decide, load_memory_fail_soft_spec.2 "garbage".data (by decide)⟩

/-- Counterexample to C5 as stated: for the text "stress" (a stressed
keyword hit, neutral sentiment, no keyword hit for any other mood), a
stressed record 0 s old makes the recency penalty apply, so
score["stressed"] is 0.4 (4 tenths), not ≥ 0.6 as the claim requires. -/
theorem stressed_keyword_score_cex :
    (∃ p ∈ MOOD_KEYWORDS, p.1 = Mood.stressed ∧
        ∃ kw ∈ p.2, substrOf kw (lowerStr "stress".data) = true) ∧
    (-500 < (0:ℤ) ∧ (0:ℤ) < 500) ∧
    (∀ p ∈ MOOD_KEYWORDS, p.1 ≠ Mood.stressed →
        ∀ kw ∈ p.2, substrOf kw (lowerStr "stress".data) = false) ∧
    (detect_mood "stress".data 0
        [(recentKey, JVal.recs [⟨"stressed".data, 0⟩])] 0).2 Mood.stressed = 4 ∧
    ¬(6 ≤ (detect_mood "stress".data 0
        [(recentKey, JVal.recs [⟨"stressed".data, 0⟩])] 0).2 Mood.stressed) := by
  decide

/-- Claim C5 (amended): under a stressed keyword hit, neutral-range
sentiment and no keyword hit for any other mood, score["stressed"] is at
least 0.4 (0.6 keyword bonus plus the worst-case recency penalty -0.2), is
at least 0.6 whenever the stressed recency penalty does not apply, and the
selected mood is "stressed". -/
theorem stressed_keyword_amended_spec (text : Str) (comp : ℤ) (mem : Mem)
    (now : ℤ)
    (hkw : ∃ p ∈ MOOD_KEYWORDS, p.1 = Mood.stressed ∧
        ∃ kw ∈ p.2, substrOf kw (lowerStr text) = true)
    (hc1 : -500 < comp) (hc2 : comp < 500)
    (hno : ∀ p ∈ MOOD_KEYWORDS, p.1 ≠ Mood.stressed →
        ∀ kw ∈ p.2, substrOf kw (lowerStr text) = false) :
    4 ≤ (detect_mood text comp mem now).2 Mood.stressed ∧
    (recent_mood_bias mem (moodStr Mood.stressed) now = 0 →
        6 ≤ (detect_mood text comp mem now).2 Mood.stressed) ∧
    (detect_mood text comp mem now).1 = Mood.stressed := by
  have hanyS : (kwListOf .stressed).any
      (fun kw => substrOf kw (lowerStr text)) = true := by
    obtain ⟨p, hp, hp1, kw, hkw1, hkw2⟩ := hkw
    simp only [MOOD_KEYWORDS, List.mem_cons, List.not_mem_nil, or_false]
      at hp
    rcases hp with hp | hp | hp | hp <;> subst hp
    · rw [kwListOf_stressed]
      exact List.any_eq_true.mpr ⟨kw, hkw1, hkw2⟩
    · simp at hp1
    · simp at hp1
    · simp at hp1
  have hanyT : (kwListOf .tired).any
      (fun kw => substrOf kw (lowerStr text)) = false := by
    rw [kwListOf_tired, List.any_eq_false]
    intro kw hkw'
    simp [hno (Mood.tired, ["sleepy".data, "exhausted".data, "fatigue".data,
      "drained".data, "tired".data]) (by simp [MOOD_KEYWORDS]) (by decide)
      kw hkw']
  have hanySad : (kwListOf .sad).any
      (fun kw => substrOf kw (lowerStr text)) = false := by
    rw [kwListOf_sad, List.any_eq_false]
    intro kw hkw'
    simp [hno (Mood.sad, ["down".data, "blue".data, "depressed".data,
      "lonely".data, "sad".data]) (by simp [MOOD_KEYWORDS]) (by decide)
      kw hkw']
  have hanyH : (kwListOf .happy).any
      (fun kw => substrOf kw (lowerStr text)) = false := by
    rw [kwListOf_happy, List.any_eq_false]
    intro kw hkw'
    simp [hno (Mood.happy, ["great".data, "excited".data, "joy".data,
      "grateful".data, "happy".data]) (by simp [MOOD_KEYWORDS]) (by decide)
      kw hkw']
  have hanyN : (kwListOf .neutral).any
      (fun kw => substrOf kw (lowerStr text)) = false := by
    rw [kwListOf_neutral]
    rfl
  have g1 : ¬ (comp ≥ 5000) := by omega
  have g2 : ¬ (comp ≥ 500) := by omega
  have g3 : ¬ (comp ≤ -5000) := by omega
  have g4 : ¬ (comp ≤ -500) := by omega
  have hfs : ∀ m : Mood, finalScores text comp mem now m
      = (if (kwListOf m).any (fun kw => substrOf kw (lowerStr text)) then 6
         else 0)
        + (if m = Mood.neutral then 2 else 0)
        + recent_mood_bias mem (moodStr m) now := by
    intro m
    rw [finalScores_eval]
    have e : (if comp ≥ 5000 then (if m = Mood.happy then 5 else 0)
         else if comp ≥ 500 then (if m = Mood.happy then 2 else 0)
         else if comp ≤ -5000 then (if m = Mood.sad then 5 else 0)
         else if comp ≤ -500 then (if m = Mood.stressed then 2 else 0)
         else (if m = Mood.neutral then 2 else 0))
        = (if m = Mood.neutral then 2 else 0) := by
      rw [if_neg g1, if_neg g2, if_neg g3, if_neg g4]
    linarith [e]
  have hst : finalScores text comp mem now .stressed
      = 6 + recent_mood_bias mem (moodStr .stressed) now := by
    rw [hfs, hanyS]
    simp
  have hti : finalScores text comp mem now .tired
      = recent_mood_bias mem (moodStr .tired) now := by
    rw [hfs, hanyT]
    simp
  have hsa : finalScores text comp mem now .sad
      = recent_mood_bias mem (moodStr .sad) now := by
    rw [hfs, hanySad]
    simp
  have hha : finalScores text comp mem now .happy
      = recent_mood_bias mem (moodStr .happy) now := by
    rw [hfs, hanyH]
    simp
  have hne : finalScores text comp mem now .neutral
      = 2 + recent_mood_bias mem (moodStr .neutral) now := by
    rw [hfs, hanyN]
    simp
  have hlt : ∀ x : Mood, x ≠ Mood.stressed →
      finalScores text comp mem now x < finalScores text comp mem now .stressed := by
    intro x hx
    rcases recent_mood_bias_cases mem (moodStr .stressed) now with h0 | h0 <;>
      cases x <;>
      first
        | exact absurd rfl hx
        | (rcases recent_mood_bias_cases mem (moodStr .tired) now with h1 | h1 <;>
            rw [hti, hst, h0, h1] <;> omega)
        | (rcases recent_mood_bias_cases mem (moodStr .sad) now with h1 | h1 <;>
            rw [hsa, hst, h0, h1] <;> omega)
        | (rcases recent_mood_bias_cases mem (moodStr .happy) now with h1 | h1 <;>
            rw [hha, hst, h0, h1] <;> omega)
        | (rcases recent_mood_bias_cases mem (moodStr .neutral) now with h1 | h1 <;>
            rw [hne, hst, h0, h1] <;> omega)
  refine ⟨?_, ?_, ?_⟩
  · show 4 ≤ finalScores text comp mem now .stressed
    rcases recent_mood_bias_cases mem (moodStr .stressed) now with h0 | h0 <;>
      rw [hst, h0] <;> omega
  · intro hb
    show 6 ≤ finalScores text comp mem now .stressed
    rw [hst, hb]
    omega
  · show argmaxMood (finalScores text comp mem now) = Mood.stressed
    exact argmax_eq_of_others_lt _ _ hlt

/-- Witness for C5 (amended): "I feel stress" on the empty memory scores
0.6 for stressed and the classifier selects stressed. -/
theorem stressed_keyword_amended_spec_w :
    6 ≤ (detect_mood "I feel stress".data 0 emptyMem 0).2 Mood.stressed ∧
    (detect_mood "I feel stress".data 0 emptyMem 0).1 = Mood.stressed := by
  have h := stressed_keyword_amended_spec "I feel stress".data 0 emptyMem 0
    ⟨(Mood.stressed, ["overwhelmed".data, "anxious".data, "stress".data,
        "pressure".data, "panic".data]), by decide,
      rfl, ⟨"stress".data, by decide, by decide⟩⟩
    (by omega) (by omega) (by decide)
  exact ⟨h.2.1 (by decide), h.2.2⟩
